import Mathlib

/-!
The iProlog engine (`iprolog_cpp/src/Engine.h`): heap, tags and trail.

A shallow embedding of the inline members of the C++ class `Engine`:
the tagged-cell encoding (`tag`, `detag`, `tagOf`, `isVAR`, `relocate`),
the heap cursor operations (`makeHeap`, `clear`, `push`, `size`,
`ensureSize`), the reference accessors (`getRef`, `setRef`), the trail
unwinding loop (`unwindTrail`), and the accessors of the clause database and
of the spine stack (`getQuery`, `answer`).

Conventions of the embedding.

* A C++ `int` is a Lean `Int`; every arithmetic result is normalised by
  `wrap32` (two's complement, 32 bits), so that the definitions describe the
  machine operation also where the mathematical result leaves the range.
* `<<`, `>>` and `&` are the library operations `<<<`, `>>>` and `Int.land`;
  the lemmas `shl3_eq`, `shr3_eq` and `land7_eq` give their arithmetic
  reading (`* 8`, floor `/ 8`, `% 8`).
* `std::vector<int> heap` is a `List Int`; an access outside the vector is
  undefined behaviour in C++ and is `none` here.
-/

set_option autoImplicit false

/-- Two's complement normalisation of a mathematical integer to a 32-bit `int`. -/
def wrap32 (x : Int) : Int := (x + 2147483648) % 4294967296 - 2147483648

/-- Conversion of an `int` to `unsigned int` (32 bits). -/
def toU32 (x : Int) : Int := x % 4294967296

/-- Conversion of an integer to `size_t` (unsigned, 64 bits). -/
def toU64 (x : Int) : Int := x % 18446744073709551616

/-- The values an `int` can hold. -/
def isInt32 (x : Int) : Prop := -2147483648 ≤ x ∧ x ≤ 2147483647

instance (x : Int) : Decidable (isInt32 x) := by
  unfold isInt32; infer_instance

/-- Modelled from the spec: `IntStack` (header `IntStack.h` is not part of the
sources). The trail is "an append-only stack of heap addresses"; `items` lists
the entries bottom first, so entry `k` is `items[k]` and the top index is
`items.length - 1` (`-1` when empty). -/
structure IntStack where
  items : List Int
deriving DecidableEq, Repr

namespace IntStack

/-- Modelled from the spec: `IntStack::getTop`, the index of the top entry. -/
def getTop (s : IntStack) : Int := (s.items.length : Int) - 1

/-- Modelled from the spec: `IntStack::push`, append one entry at the top. -/
def push (s : IntStack) (i : Int) : IntStack := ⟨s.items ++ [i]⟩

/-- Modelled from the spec: `IntStack::pop`, remove and return the top entry;
popping an empty stack has no result. -/
def pop (s : IntStack) : Option (Int × IntStack) :=
  match s.items.getLast? with
  | none => none
  | some x => some (x, ⟨s.items.dropLast⟩)

/-- Entry `k` of the stack, counted from the bottom. -/
def entry (s : IntStack) (k : Int) : Option Int :=
  if 0 ≤ k then s.items[k.toNat]? else none

end IntStack

/-- Modelled from the spec: `Spine` (header `Spine.h` is not part of the
sources), one frame of the resolution search with the fields of section 3.4. -/
structure Spine where
  hd : Int
  base : Int
  gs : List Int
  ttop : Int
  k : Int
  cs : List Int
  xs : List Int
deriving DecidableEq, Repr

/-- Modelled from the spec: the two-argument constructor `Spine(hd, ttop)` that
`answer` calls: the spine records the head cell and the trail top; it carries
no goals and no candidate clauses. -/
def Spine.ofAnswer (hd ttop : Int) : Spine :=
  { hd := hd, base := 0, gs := [], ttop := ttop, k := -1, cs := [], xs := [] }

/-- The runtime areas of `Engine` used by the inline members:
`std::vector<int> heap; int top; IntStack trail;`. -/
structure Engine where
  heap : List Int
  top : Int
  trail : IntStack
deriving DecidableEq, Repr

namespace Engine

/-- `static const int MINSIZE = 1 << 15;` -/
def MINSIZE : Nat := 32768

def V : Int := 0
def U : Int := 1
def R : Int := 2
def C : Int := 3
def N : Int := 4
def A : Int := 5
def BAD : Int := 7

/-- `static int tag(int t, int w) { return -((w << 3) + t); }` -/
def tag (t w : Int) : Int := wrap32 (-(wrap32 (wrap32 (w <<< (3 : Int)) + t)))

/-- `static int detag(int w) { return -w >> 3; }` (arithmetic shift). -/
def detag (w : Int) : Int := (wrap32 (-w)) >>> (3 : Nat)

/-- `static int tagOf(int w) { return -w & 7; }` -/
def tagOf (w : Int) : Int := Int.land (wrap32 (-w)) 7

/-- `static bool isVAR(int x) { return tagOf(x) < 2; }` -/
def isVAR (x : Int) : Bool := decide (tagOf x < 2)

/-- `static int relocate(int b, int cell) { return tagOf(cell) < 3 ? cell + b : cell; }` -/
def relocate (b cell : Int) : Int :=
  if tagOf cell < 3 then wrap32 (cell + b) else cell

/-- Read `heap[i]`; no result outside the vector. -/
def heapAt (heap : List Int) (i : Int) : Option Int :=
  if 0 ≤ i then heap[i.toNat]? else none

/-- Write `heap[i] = v`; no result outside the vector. -/
def heapPut (heap : List Int) (i v : Int) : Option (List Int) :=
  if 0 ≤ i ∧ i < heap.length then some (heap.set i.toNat v) else none

/-- `void clear() { top = -1; }` -/
def clear (e : Engine) : Engine := { e with top := -1 }

/-- `void makeHeap(int size) { heap = std::vector<int>(size, 0); clear(); }` -/
def makeHeapOf (size : Nat) (e : Engine) : Engine :=
  clear { e with heap := List.replicate size 0 }

/-- `void makeHeap() { makeHeap(MINSIZE); }` -/
def makeHeap (e : Engine) : Engine := makeHeapOf MINSIZE e

/-- `int getTop() { return top; }` -/
def getTop (e : Engine) : Int := e.top

/-- `void push(int i) { heap[++top] = i; }` -/
def push (i : Int) (e : Engine) : Option Engine :=
  let top1 := wrap32 (e.top + 1)
  match heapPut e.heap top1 i with
  | none => none
  | some h => some { e with heap := h, top := top1 }

/-- `int size() { return top + 1; }` -/
def size (e : Engine) : Int := wrap32 (e.top + 1)

/-- Modelled from the spec: `Engine::expand` (declared only, body not in the
header): "double the underlying storage (new cells zero-initialized)"; the
existing cells keep their index. -/
def expand (e : Engine) : Engine :=
  { e with heap := e.heap ++ List.replicate e.heap.length 0 }

/-- `void ensureSize(int more) { if (1U + top + more >= heap.size()) expand(); }`
The left operand is computed in `unsigned int`, then compared with the
(64-bit) `size_t` length. -/
def ensureSize (more : Int) (e : Engine) : Engine :=
  if (e.heap.length : Int) ≤ toU32 (toU32 (1 + toU32 e.top) + toU32 more) then expand e else e

/-- `int getRef(int x) { return heap[detag(x)]; }` -/
def getRef (x : Int) (e : Engine) : Option Int := heapAt e.heap (detag x)

/-- `void setRef(int w, int r) { heap[detag(w)] = r; }` -/
def setRef (w r : Int) (e : Engine) : Option Engine :=
  match heapPut e.heap (detag w) r with
  | none => none
  | some h => some { e with heap := h }

/-- The loop of `unwindTrail`:
`while (savedTop < trail.getTop()) { int href = trail.pop(); setRef(href, href); }`
One unit of fuel is one evaluation of the loop body; `none` is returned when
the fuel runs out with the loop condition still true, when the trail is
popped empty, or when `setRef` leaves the heap. -/
def unwindLoop (savedTop : Int) : Nat → Engine → Option Engine
  | 0, e => if savedTop < e.trail.getTop then none else some e
  | fuel + 1, e =>
    if savedTop < e.trail.getTop then
      match e.trail.pop with
      | none => none
      | some (href, tr) =>
        match setRef href href { e with trail := tr } with
        | none => none
        | some e1 => unwindLoop savedTop fuel e1
    else some e

/-- `void unwindTrail(int savedTop)`: the loop run with its variant
`trail.getTop() - savedTop` as fuel (each iteration pops exactly one entry). -/
def unwindTrail (savedTop : Int) (e : Engine) : Option Engine :=
  unwindLoop savedTop (e.trail.getTop - savedTop).toNat e

/-- Modelled from the spec: the loop of `Engine::deref` (declared only, body
not in the header), section 4.2: follow `getRef` while the cell is a variable
and is not its own referent; return the first cell that is an unbound
(self-pointing) variable or a non-variable. One unit of fuel is one test of
the loop condition; `none` is returned when the fuel runs out or `getRef`
leaves the heap. -/
def derefLoop (e : Engine) : Nat → Int → Option Int
  | 0, _ => none
  | fuel + 1, x =>
    if isVAR x then
      match getRef x e with
      | none => none
      | some r => if r = x then some x else derefLoop e fuel r
    else some x

/-- Modelled from the spec: `Engine::deref`, the loop run with one unit of
fuel per heap cell plus one (a chain that visits more cells than the heap
holds has a cycle). -/
def deref (x : Int) (e : Engine) : Option Int :=
  derefLoop e (e.heap.length + 1) x

/-- One binding as the unifier performs it on an unbound variable: the cell
`v = tag V i` is held by `heap[i]`, it is overwritten by `setRef v r`, and
`v` is pushed on the trail. No result when `heap[i]` does not hold `v`. -/
def bindVar (i r : Int) (e : Engine) : Option Engine :=
  if 0 ≤ i ∧ i < 268435456 ∧ heapAt e.heap i = some (tag V i) then
    match setRef (tag V i) r e with
    | none => none
    | some e1 => some { e1 with trail := e1.trail.push (tag V i) }
  else none

/-- A finite sequence of bindings `(i, r)`, performed first to last. -/
def bindAll : List (Int × Int) → Engine → Option Engine
  | [], e => some e
  | (i, r) :: bs, e =>
    match bindVar i r e with
    | none => none
    | some e1 => bindAll bs e1

/-- The heap after the writes `heap[detag x] = x` for the entries `x` of
`popped`, performed last entry first (the order in which a stack holding
`popped` on top releases them). -/
def restoreCells (heap : List Int) (popped : List Int) : List Int :=
  popped.foldr (fun x h => h.set (detag x).toNat x) heap

/-- A tag that names a cell kind: one of `V, U, R, C, N, A`. -/
def validTag (t : Int) : Prop := t = V ∨ t = U ∨ t = R ∨ t = C ∨ t = N ∨ t = A

instance (t : Int) : Decidable (validTag t) := by
  unfold validTag; infer_instance

/-- Tag totality: every cell of the heap vector carries a valid tag. -/
def TagTotal (heap : List Int) : Prop := ∀ c ∈ heap, validTag (tagOf c)

/-- The chain discipline of the heap: the cell held at index `i` is a
non-variable, or a variable cell with payload `i` (unbound, self-pointing), or
a variable cell whose payload is a strictly lower heap index. -/
def Acyclic (heap : List Int) : Prop :=
  ∀ (i : Nat) (c : Int), heap[i]? = some c →
    isVAR c = false ∨ detag c = (i : Int) ∨ (0 ≤ detag c ∧ detag c < (i : Int))

/-- `Clause* getQuery() { return &(*clauses)[clauses->size() - 1]; }`
The vector `*clauses` is passed as a list; its element type (`Clause.h` is not
part of the sources) is a parameter. The index `size() - 1` is computed in
`size_t`; no result when it lies outside the vector. -/
def getQuery {Clause : Type} (clauses : List Clause) : Option Clause :=
  clauses[(toU64 ((clauses.length : Int) - 1)).toNat]?

/-- `Spine* answer(int ttop) { return new Spine(spines[0]->hd, ttop); }`
The stack `spines` is passed as the list of its spines, bottom first, so that
`spines[0]` is the head of the list; no result on an empty stack. -/
def answer (ttop : Int) (spines : List Spine) : Option Spine :=
  match spines[0]? with
  | none => none
  | some s => some (Spine.ofAnswer s.hd ttop)

end Engine

/-! ## Arithmetic reading of the bit operations -/

theorem shl3_eq (w : Int) : w <<< (3 : Int) = w * 8 := by
  have h := Int.shiftLeft_eq_mul_pow w 3
  simpa using h

theorem shr3_eq (x : Int) : x >>> (3 : Nat) = x / 8 := by
  rw [Int.shiftRight_eq_div_pow]; norm_num

theorem ldiff7_small (r : Nat) (h : r < 8) : Nat.ldiff 7 r = 7 - r := by
  interval_cases r <;> norm_num [Nat.ldiff, Nat.bitwise]

theorem ldiff7_mod (m : Nat) : Nat.ldiff 7 m = Nat.ldiff 7 (m % 8) := by
  apply Nat.eq_of_testBit_eq
  intro i
  have h8 : (8 : Nat) = 2 ^ 3 := by norm_num
  rw [Nat.testBit_ldiff, Nat.testBit_ldiff, h8, Nat.testBit_mod_two_pow]
  have h7 : (7 : Nat) = 2 ^ 3 - 1 := by norm_num
  rw [h7, Nat.testBit_two_pow_sub_one]
  by_cases hi : i < 3 <;> simp [hi]

theorem land7_eq (x : Int) : Int.land x 7 = x % 8 := by
  cases x with
  | ofNat m =>
    show ((m &&& 7 : Nat) : Int) = _
    have h := Nat.and_pow_two_sub_one_eq_mod m 3
    norm_num at h
    rw [h]; rfl
  | negSucc m =>
    show ((Nat.ldiff 7 m : Nat) : Int) = _
    rw [ldiff7_mod, ldiff7_small _ (Nat.mod_lt _ (by norm_num))]
    have h1 : m % 8 < 8 := Nat.mod_lt _ (by norm_num)
    rw [Int.negSucc_eq]
    omega

namespace Engine

theorem tag_eq (t w : Int) : tag t w = wrap32 (-(wrap32 (wrap32 (w * 8) + t))) := by
  unfold tag; rw [shl3_eq]

theorem detag_eq (w : Int) : detag w = wrap32 (-w) / 8 := by
  unfold detag; rw [shr3_eq]

theorem tagOf_eq (w : Int) : tagOf w = wrap32 (-w) % 8 := by
  unfold tagOf; rw [land7_eq]

theorem tag_exact (t w : Int) (ht : 0 ≤ t ∧ t ≤ 7)
    (hw : -268435456 < w ∧ w < 268435456) : tag t w = -(8 * w + t) := by
  rw [tag_eq]; unfold wrap32; omega

theorem detag_tag (t w : Int) (ht : 0 ≤ t ∧ t ≤ 7)
    (hw : -268435456 < w ∧ w < 268435456) : detag (tag t w) = w := by
  rw [tag_exact t w ht hw, detag_eq]; unfold wrap32; omega

theorem tagOf_tag (t w : Int) (ht : 0 ≤ t ∧ t ≤ 7)
    (hw : -268435456 < w ∧ w < 268435456) : tagOf (tag t w) = t := by
  rw [tag_exact t w ht hw, tagOf_eq]; unfold wrap32; omega

theorem tagOf_range (w : Int) : 0 ≤ tagOf w ∧ tagOf w ≤ 7 := by
  rw [tagOf_eq]; omega

/-- C1 (tag round trip): for every tag `t` in `0..7` and every payload `w`
with `-2^28 < w < 2^28`, negative payloads included, `detag (tag t w) = w`
and `tagOf (tag t w) = t`. -/
theorem tag_round_trip (t w : Int) (ht : 0 ≤ t ∧ t ≤ 7)
    (hw : -268435456 < w ∧ w < 268435456) :
    detag (tag t w) = w ∧ tagOf (tag t w) = t :=
  ⟨detag_tag t w ht hw, tagOf_tag t w ht hw⟩

/-- Instance of C1 at the `N` cell of the negative integer `-5`. -/
theorem tag_round_trip_witness :
    (0 ≤ N ∧ N ≤ 7) ∧ (-268435456 < (-5 : Int) ∧ (-5 : Int) < 268435456) ∧
      detag (tag N (-5)) = -5 ∧ tagOf (tag N (-5)) = N :=
  ⟨by decide, by decide, tag_round_trip N (-5) (by decide) (by decide)⟩

/-- C2 (sign convention): for every tag `t` in `0..7` and payload `w` with
`0 ≤ w < 2^28` the cell `tag t w` is non-positive, hence different from every
positive raw integer. -/
theorem tag_nonpos (t w : Int) (ht : 0 ≤ t ∧ t ≤ 7) (hw : 0 ≤ w ∧ w < 268435456) :
    tag t w ≤ 0 ∧ ∀ raw : Int, 0 < raw → tag t w ≠ raw := by
  have h := tag_exact t w ht ⟨by omega, hw.2⟩
  constructor
  · omega
  · intro raw hraw; omega

/-- Instance of C2 at the `R` cell of heap index `12`. -/
theorem tag_nonpos_witness :
    (0 ≤ R ∧ R ≤ 7) ∧ (0 ≤ (12 : Int) ∧ (12 : Int) < 268435456) ∧
      tag R 12 ≤ 0 ∧ ∀ raw : Int, 0 < raw → tag R 12 ≠ raw :=
  ⟨by decide, by decide, tag_nonpos R 12 (by decide) (by decide)⟩

/-! ## The trail: closed form of `unwindTrail` -/

theorem heapPut_ok (h : List Int) (i v : Int) (hi : 0 ≤ i ∧ i < h.length) :
    heapPut h i v = some (h.set i.toNat v) := by
  unfold heapPut; rw [if_pos hi]

theorem restoreCells_length (h popped : List Int) :
    (restoreCells h popped).length = h.length := by
  induction popped with
  | nil => rfl
  | cons a t ih =>
    show ((restoreCells h t).set (detag a).toNat a).length = h.length
    rw [List.length_set, ih]

theorem restoreCells_concat (h popped : List Int) (x : Int) :
    restoreCells h (popped ++ [x]) = restoreCells (h.set (detag x).toNat x) popped := by
  unfold restoreCells; rw [List.foldr_append]; rfl

theorem unwindLoop_closed (savedTop : Int) (pre : List Int)
    (hpre : savedTop + 1 = (pre.length : Int)) :
    ∀ (rsuf h : List Int) (top : Int),
      (∀ x ∈ rsuf, 0 ≤ detag x ∧ detag x < (h.length : Int)) →
      unwindLoop savedTop rsuf.length ⟨h, top, ⟨pre ++ rsuf.reverse⟩⟩
        = some ⟨restoreCells h rsuf.reverse, top, ⟨pre⟩⟩ := by
  intro rsuf
  induction rsuf with
  | nil =>
    intro h top _
    have hc : ¬ savedTop < (pre.length : Int) - 1 := by omega
    simp [unwindLoop, IntStack.getTop, hc, restoreCells]
  | cons x rs ih =>
    intro h top hv
    have hx := hv x (List.mem_cons_self x rs)
    have hc : savedTop < ((pre.length : Int) + ((rs.length : Int) + 1)) - 1 := by omega
    have hlen : ((h.set (detag x).toNat x).length : Int) = h.length := by
      rw [List.length_set]
    have ih1 := ih (h.set (detag x).toNat x) top (by
      intro y hy
      rw [hlen]
      exact hv y (List.mem_cons_of_mem x hy))
    have hpop : IntStack.pop ⟨pre ++ (rs.reverse ++ [x])⟩
        = some (x, ⟨pre ++ rs.reverse⟩) := by
      simp [IntStack.pop, ← List.append_assoc]
    simp only [List.length_cons, List.reverse_cons, unwindLoop, IntStack.getTop,
      List.length_append, List.length_reverse, List.length_singleton, List.length_nil,
      Nat.cast_add, Nat.cast_one, Nat.cast_zero, zero_add, hc, if_true, hpop, setRef, heapPut_ok h (detag x) x hx]
    rw [ih1, restoreCells_concat]

theorem unwindTrail_closed (savedTop : Int) (e : Engine)
    (hs : -1 ≤ savedTop ∧ savedTop ≤ e.trail.getTop)
    (hv : ∀ x ∈ e.trail.items.drop (savedTop + 1).toNat,
      0 ≤ detag x ∧ detag x < (e.heap.length : Int)) :
    unwindTrail savedTop e
      = some ⟨restoreCells e.heap (e.trail.items.drop (savedTop + 1).toNat), e.top,
          ⟨e.trail.items.take (savedTop + 1).toNat⟩⟩ := by
  obtain ⟨h, top, ⟨items⟩⟩ := e
  simp only [IntStack.getTop] at hs hv ⊢
  have hn : (savedTop + 1).toNat ≤ items.length := by omega
  have key := unwindLoop_closed savedTop (items.take (savedTop + 1).toNat)
    (by rw [List.length_take, Nat.min_eq_left hn]; omega)
    (items.drop (savedTop + 1).toNat).reverse h top
    (by intro x hx; exact hv x (List.mem_reverse.mp hx))
  rw [List.reverse_reverse, List.take_append_drop, List.length_reverse,
    List.length_drop] at key
  have hfuel : ((items.length : Int) - 1 - savedTop).toNat
      = items.length - (savedTop + 1).toNat := by omega
  unfold unwindTrail
  simp only [IntStack.getTop]
  rw [hfuel]
  exact key

theorem restoreCells_at_popped (h : List Int) :
    ∀ popped : List Int,
      (∀ x ∈ popped, 0 ≤ detag x ∧ detag x < (h.length : Int)) →
      (∀ x ∈ popped, ∀ y ∈ popped, detag x = detag y → x = y) →
      ∀ x ∈ popped, heapAt (restoreCells h popped) (detag x) = some x := by
  intro popped
  induction popped with
  | nil => intro _ _ x hx; cases hx
  | cons a t ih =>
    intro hv hinj x hx
    have ha := hv a (List.mem_cons_self a t)
    have hxv := hv x hx
    show heapAt ((restoreCells h t).set (detag a).toNat a) (detag x) = some x
    unfold heapAt
    rw [if_pos hxv.1]
    by_cases hd : detag x = detag a
    · have hxa : x = a := hinj x hx a (List.mem_cons_self a t) hd
      subst hxa
      apply List.getElem?_set_self
      rw [restoreCells_length]; omega
    · have hxt : x ∈ t := by
        rcases List.mem_cons.mp hx with hxa | hxt
        · exact absurd (by rw [hxa]) hd
        · exact hxt
      rw [List.getElem?_set_ne (by omega)]
      have ih1 := ih (fun y hy => hv y (List.mem_cons_of_mem a hy))
        (fun y hy z hz => hinj y (List.mem_cons_of_mem a hy) z (List.mem_cons_of_mem a hz))
        x hxt
      unfold heapAt at ih1
      rw [if_pos hxv.1] at ih1
      exact ih1

theorem mem_drop_entry (items : List Int) (n : Nat) (x : Int)
    (hx : x ∈ items.drop n) :
    ∃ k : Nat, n ≤ k ∧ k < items.length ∧ items[k]? = some x := by
  obtain ⟨m, hm⟩ := List.mem_iff_getElem?.mp hx
  rw [List.getElem?_drop] at hm
  refine ⟨n + m, Nat.le_add_right n m, ?_, hm⟩
  obtain ⟨hlt, _⟩ := List.getElem?_eq_some.mp hm
  exact hlt

theorem entry_mem_drop (items : List Int) (n k : Nat) (x : Int)
    (hk : n ≤ k) (hx : items[k]? = some x) : x ∈ items.drop n := by
  apply List.mem_iff_getElem?.mpr
  refine ⟨k - n, ?_⟩
  rw [List.getElem?_drop]
  have : n + (k - n) = k := by omega
  rw [this]; exact hx

/-- The entries above the watermark, read as a list, are the variable cells
the index-wise hypothesis describes. -/
theorem popped_are_vars (e : Engine) (savedTop : Int) (hs : -1 ≤ savedTop)
    (hv : ∀ k : Int, savedTop < k → k ≤ e.trail.getTop →
      ∃ i : Int, (0 ≤ i ∧ i < (e.heap.length : Int) ∧ i < 268435456) ∧
        e.trail.entry k = some (tag V i)) :
    ∀ x ∈ e.trail.items.drop (savedTop + 1).toNat,
      ∃ i : Int, (0 ≤ i ∧ i < (e.heap.length : Int) ∧ i < 268435456) ∧ x = tag V i := by
  intro x hx
  obtain ⟨k, hk1, hk2, hk3⟩ := mem_drop_entry _ _ _ hx
  obtain ⟨i, hi, hent⟩ := hv (k : Int) (by omega) (by unfold IntStack.getTop; omega)
  refine ⟨i, hi, ?_⟩
  unfold IntStack.entry at hent
  rw [if_pos (by omega), Int.toNat_ofNat, hk3] at hent
  exact Option.some.inj hent

theorem detag_var (i : Int) (hi : 0 ≤ i ∧ i < 268435456) : detag (tag V i) = i :=
  detag_tag V i (by decide) ⟨by omega, hi.2⟩

/-- C3 (`unwindTrail` restores unbound variables): for a watermark
`-1 ≤ savedTop ≤ trail top`, when every trail entry above `savedTop` is a
variable cell `tag V i` of a valid heap index `i` (inside the heap, payload
below `2^28`), `unwindTrail savedTop` returns; afterwards the trail top is
`savedTop`, the entries at or below `savedTop` are unchanged, and for each
popped entry `tag V i` the heap cell `i` is again `tag V i`. -/
theorem unwindTrail_restores (e : Engine) (savedTop : Int)
    (hs : -1 ≤ savedTop ∧ savedTop ≤ e.trail.getTop)
    (hv : ∀ k : Int, savedTop < k → k ≤ e.trail.getTop →
      ∃ i : Int, (0 ≤ i ∧ i < (e.heap.length : Int) ∧ i < 268435456) ∧
        e.trail.entry k = some (tag V i)) :
    ∃ e1 : Engine, unwindTrail savedTop e = some e1 ∧
      e1.trail.getTop = savedTop ∧
      (∀ k : Int, k ≤ savedTop → e1.trail.entry k = e.trail.entry k) ∧
      (∀ k i : Int, savedTop < k → k ≤ e.trail.getTop →
        (0 ≤ i ∧ i < (e.heap.length : Int) ∧ i < 268435456) →
        e.trail.entry k = some (tag V i) → heapAt e1.heap i = some (tag V i)) := by
  have hpop := popped_are_vars e savedTop hs.1 hv
  have hvalid : ∀ x ∈ e.trail.items.drop (savedTop + 1).toNat,
      0 ≤ detag x ∧ detag x < (e.heap.length : Int) := by
    intro x hx
    obtain ⟨i, hi, rfl⟩ := hpop x hx
    rw [detag_var i ⟨hi.1, hi.2.2⟩]
    exact ⟨hi.1, hi.2.1⟩
  have hinj : ∀ x ∈ e.trail.items.drop (savedTop + 1).toNat,
      ∀ y ∈ e.trail.items.drop (savedTop + 1).toNat, detag x = detag y → x = y := by
    intro x hx y hy hxy
    obtain ⟨i, hi, rfl⟩ := hpop x hx
    obtain ⟨j, hj, rfl⟩ := hpop y hy
    rw [detag_var i ⟨hi.1, hi.2.2⟩, detag_var j ⟨hj.1, hj.2.2⟩] at hxy
    rw [hxy]
  refine ⟨_, unwindTrail_closed savedTop e hs hvalid, ?_, ?_, ?_⟩
  · have hs2 := hs.2
    simp only [IntStack.getTop, List.length_take] at hs2 ⊢
    omega
  · intro k hk
    simp only [IntStack.entry]
    by_cases h0 : 0 ≤ k
    · rw [if_pos h0, if_pos h0, List.getElem?_take, if_pos (by omega)]
    · rw [if_neg h0, if_neg h0]
  · intro k i hk1 hk2 hi hent
    have h0 : 0 ≤ k := by omega
    unfold IntStack.entry at hent
    rw [if_pos h0] at hent
    have hmem : tag V i ∈ e.trail.items.drop (savedTop + 1).toNat :=
      entry_mem_drop _ _ k.toNat _ (by omega) hent
    have key := restoreCells_at_popped e.heap _ hvalid hinj (tag V i) hmem
    rw [detag_var i ⟨hi.1, hi.2.2⟩] at key
    exact key

/-- Instance of C3: cell `1` was bound to `99`, the trail holds `tag V 1 = -8`. -/
theorem unwindTrail_restores_witness :
    (-1 ≤ (-1 : Int) ∧ (-1 : Int) ≤ (⟨[0, 99, 55], 2, ⟨[-8]⟩⟩ : Engine).trail.getTop) ∧
    ∃ e1 : Engine, unwindTrail (-1) ⟨[0, 99, 55], 2, ⟨[-8]⟩⟩ = some e1 ∧
      e1.trail.getTop = -1 ∧
      (∀ k : Int, k ≤ -1 → e1.trail.entry k = (⟨[-8]⟩ : IntStack).entry k) ∧
      (∀ k i : Int, -1 < k → k ≤ (⟨[0, 99, 55], 2, ⟨[-8]⟩⟩ : Engine).trail.getTop →
        (0 ≤ i ∧ i < ((⟨[0, 99, 55], 2, ⟨[-8]⟩⟩ : Engine).heap.length : Int)
          ∧ i < 268435456) →
        (⟨[-8]⟩ : IntStack).entry k = some (tag V i) → heapAt e1.heap i = some (tag V i)) :=
  ⟨by decide, unwindTrail_restores ⟨[0, 99, 55], 2, ⟨[-8]⟩⟩ (-1) (by decide) (by
    intro k hk1 hk2
    have hk : k = 0 := by
      simp only [IntStack.getTop, List.length_singleton, Nat.cast_one] at hk2
      omega
    subst hk
    exact ⟨1, by decide, by decide⟩)⟩

/-! ## Binding and unwinding -/

theorem set_same (l : List Int) (n : Nat) (a : Int) (h : l[n]? = some a) :
    l.set n a = l := by
  apply List.ext_getElem?
  intro m
  rw [List.getElem?_set]
  by_cases hnm : n = m
  · subst hnm
    obtain ⟨hlt, _⟩ := List.getElem?_eq_some.mp h
    rw [if_pos rfl, if_pos hlt, h]
  · rw [if_neg hnm]

theorem bindVar_some (i r : Int) (e e1 : Engine) (hb : bindVar i r e = some e1) :
    (0 ≤ i ∧ i < (e.heap.length : Int) ∧ i < 268435456) ∧
      e.heap[i.toNat]? = some (tag V i) ∧
      e1 = ⟨e.heap.set i.toNat r, e.top, ⟨e.trail.items ++ [tag V i]⟩⟩ := by
  unfold bindVar at hb
  split at hb
  · rename_i hg
    obtain ⟨h0, h28, hat⟩ := hg
    unfold heapAt at hat
    rw [if_pos h0] at hat
    obtain ⟨hlt, _⟩ := List.getElem?_eq_some.mp hat
    have hi : 0 ≤ i ∧ i < (e.heap.length : Int) := ⟨h0, by omega⟩
    simp only [setRef, detag_var i ⟨h0, h28⟩, heapPut_ok e.heap i r hi, IntStack.push,
      Option.some.injEq] at hb
    exact ⟨⟨h0, hi.2, h28⟩, hat, hb.symm⟩
  · cases hb

/-- Shape of the state after a sequence of bindings: the trail has grown by
the bound variable cells, and releasing them restores the heap. -/
theorem bindAll_shape :
    ∀ (bs : List (Int × Int)) (e e1 : Engine), bindAll bs e = some e1 →
      ∃ vs : List Int, e1.trail.items = e.trail.items ++ vs ∧ e1.top = e.top ∧
        e1.heap.length = e.heap.length ∧
        (∀ x ∈ vs, 0 ≤ detag x ∧ detag x < (e.heap.length : Int)) ∧
        restoreCells e1.heap vs = e.heap := by
  intro bs
  induction bs with
  | nil =>
    intro e e1 hb
    simp only [bindAll, Option.some.injEq] at hb
    subst hb
    refine ⟨[], (List.append_nil _).symm, rfl, rfl, ?_, rfl⟩
    intro x hx
    cases hx
  | cons b bs ih =>
    intro e e2 hb
    obtain ⟨i, r⟩ := b
    unfold bindAll at hb
    cases h1 : bindVar i r e with
    | none => rw [h1] at hb; cases hb
    | some e1 =>
      rw [h1] at hb
      simp only at hb
      obtain ⟨hi, hat, he1⟩ := bindVar_some i r e e1 h1
      obtain ⟨vs, hitems, htop, hlen, hvalid, hrest⟩ := ih e1 e2 hb
      subst he1
      simp only [List.length_set] at hitems htop hlen hvalid hrest
      refine ⟨tag V i :: vs, ?_, htop, hlen, ?_, ?_⟩
      · rw [hitems]; simp
      · intro x hx
        rcases List.mem_cons.mp hx with hx | hx
        · rw [hx, detag_var i ⟨hi.1, hi.2.2⟩]; exact ⟨hi.1, hi.2.1⟩
        · exact hvalid x hx
      · show (restoreCells e2.heap vs).set (detag (tag V i)).toNat (tag V i) = e.heap
        rw [hrest, detag_var i ⟨hi.1, hi.2.2⟩, List.set_set, set_same _ _ _ hat]

/-- C4 (bind/unwind round trip): from any heap and trail, after any finite
sequence of bindings (each overwrites an unbound variable cell `tag V i` held
by `heap[i]` through `setRef` and pushes it on the trail), `unwindTrail` to
the initial trail top returns a state whose heap and trail are those of the
start; the heap top is the one the bindings left, which is the initial one. -/
theorem bind_unwind_round_trip (e e1 : Engine) (bs : List (Int × Int))
    (hb : bindAll bs e = some e1) :
    ∃ e2 : Engine, unwindTrail e.trail.getTop e1 = some e2 ∧
      e2.heap = e.heap ∧ e2.trail = e.trail ∧ e2.top = e1.top ∧ e1.top = e.top := by
  obtain ⟨vs, hitems, htop, hlen, hvalid, hrest⟩ := bindAll_shape bs e e1 hb
  have hn : (e.trail.getTop + 1).toNat = e.trail.items.length := by
    unfold IntStack.getTop; omega
  have hclosed := unwindTrail_closed e.trail.getTop e1
    (by unfold IntStack.getTop; rw [hitems, List.length_append]; push_cast; omega)
    (by
      rw [hn, hitems, List.drop_left]
      intro x hx
      rw [hlen]
      exact hvalid x hx)
  rw [hn, hitems, List.drop_left, List.take_left, hrest] at hclosed
  exact ⟨_, hclosed, rfl, rfl, rfl, htop⟩

/-- Instance of C4: two bindings (cells `1` and `2`) over a trail that already
holds one entry, then `unwindTrail 0`. -/
theorem bind_unwind_round_trip_witness :
    bindAll [(1, -27), (2, -8)] ⟨[-27, -8, -16], 2, ⟨[0]⟩⟩
        = some ⟨[-27, -27, -8], 2, ⟨[0, -8, -16]⟩⟩ ∧
    ∃ e2 : Engine, unwindTrail (⟨[-27, -8, -16], 2, ⟨[0]⟩⟩ : Engine).trail.getTop
        ⟨[-27, -27, -8], 2, ⟨[0, -8, -16]⟩⟩ = some e2 ∧
      e2.heap = [-27, -8, -16] ∧ e2.trail = ⟨[0]⟩ ∧ e2.top = 2 ∧ (2 : Int) = 2 :=
  ⟨by decide, bind_unwind_round_trip ⟨[-27, -8, -16], 2, ⟨[0]⟩⟩
    ⟨[-27, -27, -8], 2, ⟨[0, -8, -16]⟩⟩ [(1, -27), (2, -8)] (by decide)⟩

/-! ## Relocation and the variable test -/

/-- C5, counterexample: with the plain cell count `b = 1` as offset, the `V`
cell of payload `5` is not sent to the `V` cell of payload `6`: the result
carries tag `7` and payload `4`. -/
theorem relocate_plain_offset_counterexample :
    ¬ (tagOf (relocate 1 (tag V 5)) = V ∧ detag (relocate 1 (tag V 5)) = 5 + 1) := by
  simp only [relocate, tagOf_eq, detag_eq, tag_eq]
  decide

/-- C5, amended: when the offset passed to `relocate` is the `V`-tagged
encoding `tag V d` of the cell count `d`, every `V`, `U` or `R` cell with
payload `w` is sent to the cell with the same tag and payload `w + d`
(`w`, `d` and `w + d` within the payload range `±2^28`). -/
theorem relocate_tagged_offset_payload (d t w : Int) (ht : t = V ∨ t = U ∨ t = R)
    (hw : -268435456 < w ∧ w < 268435456) (hd : -268435456 < d ∧ d < 268435456)
    (hwd : -268435456 < w + d ∧ w + d < 268435456) :
    tagOf (relocate (tag V d) (tag t w)) = t ∧
      detag (relocate (tag V d) (tag t w)) = w + d := by
  have ht7 : 0 ≤ t ∧ t ≤ 7 := by
    rcases ht with h | h | h <;> rw [h] <;> decide
  have ht3 : t < 3 := by
    rcases ht with h | h | h <;> rw [h] <;> decide
  have hcell : tagOf (tag t w) < 3 := by rw [tagOf_tag t w ht7 hw]; exact ht3
  have hV : tag V d = -(8 * d + 0) := tag_exact V d (by decide) hd
  unfold relocate
  rw [if_pos hcell, hV, tag_exact t w ht7 hw, tagOf_eq, detag_eq]
  unfold wrap32
  constructor <;> omega

/-- Instance of the amended C5: an `R` cell of payload `5` moved by `d = 100`. -/
theorem relocate_tagged_offset_payload_witness :
    tagOf (relocate (tag V 100) (tag R 5)) = R ∧
      detag (relocate (tag V 100) (tag R 5)) = 5 + 100 :=
  relocate_tagged_offset_payload 100 R 5 (by decide) (by decide) (by decide) (by decide)

/-- C6 (relocation leaves non-reference cells alone): for every offset `b`
and every cell `c` with `tagOf c ≥ 3` (so every `C`, `N` and `A` cell,
whatever its payload), `relocate b c = c`. -/
theorem relocate_non_reference (b c : Int) (hc : 3 ≤ tagOf c) : relocate b c = c := by
  unfold relocate
  rw [if_neg (by omega)]

/-- Instance of C6 at the `N` cell of the negative integer `-7`. -/
theorem relocate_non_reference_witness :
    3 ≤ tagOf (tag N (-7)) ∧ relocate 100 (tag N (-7)) = tag N (-7) :=
  ⟨by rw [tagOf_eq, tag_eq]; decide,
   relocate_non_reference 100 (tag N (-7)) (by rw [tagOf_eq, tag_eq]; decide)⟩

/-- C7 (`isVAR` characterisation): for every cell `x`, `isVAR x` holds iff
`tagOf x` is `V` or `U`; and for every tag `t` in `0..7` and payload `w`
within `±2^28`, `isVAR (tag t w)` holds iff `t = V` or `t = U`, so that `R`,
`C`, `N` and `A` cells are not variables. -/
theorem isVAR_iff (x t w : Int) (ht : 0 ≤ t ∧ t ≤ 7)
    (hw : -268435456 < w ∧ w < 268435456) :
    (isVAR x = true ↔ tagOf x = V ∨ tagOf x = U) ∧
      (isVAR (tag t w) = true ↔ t = V ∨ t = U) ∧
      (t = R ∨ t = C ∨ t = N ∨ t = A → isVAR (tag t w) = false) := by
  have hx := tagOf_range x
  have hgen : ∀ y : Int, isVAR y = true ↔ tagOf y = V ∨ tagOf y = U := by
    intro y
    have hy := tagOf_range y
    unfold isVAR V U
    rw [decide_eq_true_iff]
    omega
  refine ⟨hgen x, ?_, ?_⟩
  · rw [hgen, tagOf_tag t w ht hw]
  · intro h
    have hnot : ¬ (t = V ∨ t = U) := by
      unfold V U
      unfold R C N A at h
      omega
    cases hb : isVAR (tag t w) with
    | false => rfl
    | true =>
      rw [hgen, tagOf_tag t w ht hw] at hb
      exact absurd hb hnot

/-- Instance of C7 at the cell `-13` (tag `A`, payload `1`) and the `U` cell
of payload `9`. -/
theorem isVAR_iff_witness :
    (isVAR (-13) = true ↔ tagOf (-13) = V ∨ tagOf (-13) = U) ∧
      (isVAR (tag U 9) = true ↔ U = V ∨ U = U) ∧
      (U = R ∨ U = C ∨ U = N ∨ U = A → isVAR (tag U 9) = false) :=
  isVAR_iff (-13) U 9 (by decide) (by decide)

/-! ## Tag totality -/

theorem tagOf_zero : tagOf 0 = V := by
  rw [tagOf_eq]; decide

theorem validTag_ne_bad (t : Int) (h : validTag t) : t ≠ BAD := by
  unfold validTag V U R C N A at h
  unfold BAD
  omega

theorem tagTotal_of_arith (h : List Int)
    (H : ∀ c ∈ h, validTag (wrap32 (-c) % 8)) : TagTotal h := by
  intro c hc
  rw [tagOf_eq]
  exact H c hc

theorem heapPut_tagTotal (h h1 : List Int) (i v : Int) (ht : TagTotal h)
    (hv : validTag (tagOf v)) (hp : heapPut h i v = some h1) : TagTotal h1 := by
  unfold heapPut at hp
  split at hp
  · injection hp with hp
    subst hp
    intro c hc
    rcases List.mem_or_eq_of_mem_set hc with hc | hc
    · exact ht c hc
    · rw [hc]; exact hv
  · cases hp

theorem push_tagTotal (e e1 : Engine) (c : Int) (ht : TagTotal e.heap)
    (hc : validTag (tagOf c)) (hp : push c e = some e1) : TagTotal e1.heap := by
  unfold push at hp
  simp only at hp
  split at hp
  · cases hp
  · rename_i h1 hput
    injection hp with hp
    subst hp
    exact heapPut_tagTotal _ _ _ _ ht hc hput

theorem setRef_tagTotal (e e1 : Engine) (w c : Int) (ht : TagTotal e.heap)
    (hc : validTag (tagOf c)) (hp : setRef w c e = some e1) : TagTotal e1.heap := by
  unfold setRef at hp
  split at hp
  · cases hp
  · rename_i h1 hput
    injection hp with hp
    subst hp
    exact heapPut_tagTotal _ _ _ _ ht hc hput

theorem pop_some (s tr : IntStack) (x : Int) (hp : s.pop = some (x, tr)) :
    s.items = tr.items ++ [x] := by
  unfold IntStack.pop at hp
  split at hp
  · cases hp
  · rename_i y hy
    injection hp with hp
    injection hp with hx htr
    subst hx
    subst htr
    exact (List.dropLast_append_getLast? y (by rw [hy]; rfl)).symm

theorem unwindLoop_tagTotal (savedTop : Int) :
    ∀ (fuel : Nat) (e e1 : Engine), TagTotal e.heap →
      (∀ x ∈ e.trail.items, validTag (tagOf x)) →
      unwindLoop savedTop fuel e = some e1 → TagTotal e1.heap := by
  intro fuel
  induction fuel with
  | zero =>
    intro e e1 ht _ hu
    unfold unwindLoop at hu
    split at hu
    · cases hu
    · injection hu with hu
      subst hu
      exact ht
  | succ n ih =>
    intro e e1 ht htr hu
    unfold unwindLoop at hu
    split at hu
    · split at hu
      · cases hu
      · rename_i href tr hpop
        have hitems := pop_some _ _ _ hpop
        have hhref : validTag (tagOf href) := htr href (by rw [hitems]; simp)
        split at hu
        · cases hu
        · rename_i e2 hset
          have ht2 : TagTotal e2.heap :=
            setRef_tagTotal { e with trail := tr } e2 href href ht hhref hset
          have htr2 : ∀ x ∈ e2.trail.items, validTag (tagOf x) := by
            have he2 : e2.trail = tr := by
              unfold setRef at hset
              split at hset
              · cases hset
              · injection hset with hset
                subst hset
                rfl
            intro x hx
            rw [he2] at hx
            exact htr x (by rw [hitems]; exact List.mem_append_left _ hx)
          exact ih e2 e1 ht2 htr2 hu
    · injection hu with hu
      subst hu
      exact ht

/-- C8 (tag totality is an invariant of the heap operations): every cell of
the heap created by `makeHeap`, from any state, has a tag among
`V, U, R, C, N, A`; a heap with this property keeps it under `push c` and
under `setRef w c` for every cell `c` with such a tag, and under `unwindTrail`
when the trail entries are `V` cells; and a heap with the property, the
fresh one in particular, holds no cell of tag `BAD`. Each operation carries
its own premises only. -/
theorem tag_totality (e : Engine) (w c savedTop : Int) :
    TagTotal (makeHeap e).heap ∧
      (TagTotal e.heap → validTag (tagOf c) →
        ∀ e1 : Engine, push c e = some e1 → TagTotal e1.heap) ∧
      (TagTotal e.heap → validTag (tagOf c) →
        ∀ e1 : Engine, setRef w c e = some e1 → TagTotal e1.heap) ∧
      (TagTotal e.heap → (∀ x ∈ e.trail.items, tagOf x = V) →
        ∀ e1 : Engine, unwindTrail savedTop e = some e1 → TagTotal e1.heap) ∧
      (TagTotal e.heap → ∀ x ∈ e.heap, tagOf x ≠ BAD) ∧
      (∀ x ∈ (makeHeap e).heap, tagOf x ≠ BAD) := by
  have hmk : TagTotal (makeHeap e).heap := by
    intro x hx
    simp only [makeHeap, makeHeapOf, clear] at hx
    rw [List.eq_of_mem_replicate hx, tagOf_zero]
    exact Or.inl rfl
  refine ⟨hmk, ?_, ?_, ?_, ?_, ?_⟩
  · intro ht hc e1 hp
    exact push_tagTotal e e1 c ht hc hp
  · intro ht hc e1 hp
    exact setRef_tagTotal e e1 w c ht hc hp
  · intro ht htr e1 hu
    exact unwindLoop_tagTotal savedTop _ e e1 ht
      (fun x hx => by rw [htr x hx]; exact Or.inl rfl) hu
  · intro ht x hx
    exact validTag_ne_bad _ (ht x hx)
  · intro x hx
    exact validTag_ne_bad _ (hmk x hx)

/-- Instance of C8: `makeHeap` from a state whose heap `[-7]` holds a cell of
tag `BAD` and whose trail entry is no `V` cell; then, on the heap
`[0, -27, -16]`, the `N` cell `-36` pushed, the same cell stored through the
reference `-8`, and the trail `[-8]` unwound. -/
theorem tag_totality_witness :
    ¬ TagTotal (⟨[-7], 0, ⟨[-7]⟩⟩ : Engine).heap ∧
      TagTotal (makeHeap ⟨[-7], 0, ⟨[-7]⟩⟩).heap ∧
      (∀ x ∈ (makeHeap ⟨[-7], 0, ⟨[-7]⟩⟩).heap, tagOf x ≠ BAD) ∧
      TagTotal (⟨[0, -27, -16], 1, ⟨[-8]⟩⟩ : Engine).heap ∧ validTag (tagOf (-36)) ∧
      TagTotal (⟨[0, -27, -36], 2, ⟨[-8]⟩⟩ : Engine).heap ∧
      TagTotal (⟨[0, -36, -16], 1, ⟨[-8]⟩⟩ : Engine).heap ∧
      TagTotal (⟨[0, -8, -16], 1, ⟨[]⟩⟩ : Engine).heap ∧
      (∀ x ∈ ([0, -27, -16] : List Int), tagOf x ≠ BAD) :=
  have hbad : ¬ TagTotal (⟨[-7], 0, ⟨[-7]⟩⟩ : Engine).heap := by
    intro h
    have h7 := h (-7) (List.mem_singleton.mpr rfl)
    rw [tagOf_eq] at h7
    revert h7
    decide
  have h0 := tag_totality ⟨[-7], 0, ⟨[-7]⟩⟩ 0 0 0
  have ht : TagTotal (⟨[0, -27, -16], 1, ⟨[-8]⟩⟩ : Engine).heap :=
    tagTotal_of_arith _ (by decide)
  have hc : validTag (tagOf (-36)) := by rw [tagOf_eq]; decide
  have htr : ∀ x ∈ (⟨[0, -27, -16], 1, ⟨[-8]⟩⟩ : Engine).trail.items, tagOf x = V := by
    intro x hx
    rw [List.mem_singleton.mp hx, tagOf_eq]
    decide
  have h := tag_totality ⟨[0, -27, -16], 1, ⟨[-8]⟩⟩ (-8) (-36) (-1)
  ⟨hbad, h0.1, h0.2.2.2.2.2, ht, hc,
    h.2.1 ht hc ⟨[0, -27, -36], 2, ⟨[-8]⟩⟩ (by decide),
    h.2.2.1 ht hc ⟨[0, -36, -16], 1, ⟨[-8]⟩⟩ (by decide),
    h.2.2.2.1 ht htr ⟨[0, -8, -16], 1, ⟨[]⟩⟩ (by decide),
    h.2.2.2.2.1 ht⟩

/-! ## Dereference -/

theorem derefLoop_nonvar (e : Engine) (n : Nat) (x : Int) (hx : isVAR x = false) :
    derefLoop e (n + 1) x = some x := by
  simp [derefLoop, hx]

theorem derefLoop_self (e : Engine) (n : Nat) (x : Int) (hx : isVAR x = true)
    (hget : getRef x e = some x) : derefLoop e (n + 1) x = some x := by
  simp [derefLoop, hx, hget]

theorem derefLoop_follow (e : Engine) (n : Nat) (x r : Int) (hx : isVAR x = true)
    (hget : getRef x e = some r) (hne : r ≠ x) :
    derefLoop e (n + 1) x = derefLoop e n r := by
  simp [derefLoop, hx, hget, hne]

/-- Dereferencing a cell that is held by the heap at index `i` needs at most
`i + 1` tests of the loop condition. -/
theorem derefLoop_heap_cell (e : Engine) (hac : Acyclic e.heap) :
    ∀ (i : Nat) (c : Int), e.heap[i]? = some c →
      ∃ r : Int, (isVAR r = false ∨ (isVAR r = true ∧ getRef r e = some r)) ∧
        ∀ fuel : Nat, i + 1 ≤ fuel → derefLoop e fuel c = some r := by
  intro i
  induction i using Nat.strong_induction_on with
  | _ i ih =>
    intro c hc
    cases hvar : isVAR c with
    | false =>
      refine ⟨c, Or.inl hvar, ?_⟩
      intro fuel hf
      obtain ⟨n, rfl⟩ : ∃ n, fuel = n + 1 := ⟨fuel - 1, by omega⟩
      exact derefLoop_nonvar e n c hvar
    | true =>
      rcases hac i c hc with h | h | h
      · rw [hvar] at h; cases h
      · have hget : getRef c e = some c := by
          unfold getRef heapAt
          rw [h, if_pos (by omega), Int.toNat_ofNat]
          exact hc
        refine ⟨c, Or.inr ⟨hvar, hget⟩, ?_⟩
        intro fuel hf
        obtain ⟨n, rfl⟩ : ∃ n, fuel = n + 1 := ⟨fuel - 1, by omega⟩
        exact derefLoop_self e n c hvar hget
      · have hj : (detag c).toNat < i := by omega
        have hlen : i < e.heap.length := (List.getElem?_eq_some.mp hc).1
        have hjlen : (detag c).toNat < e.heap.length := by omega
        have hc1 : e.heap[(detag c).toNat]? = some (e.heap[(detag c).toNat]) :=
          List.getElem?_eq_getElem hjlen
        have hget : getRef c e = some (e.heap[(detag c).toNat]) := by
          unfold getRef heapAt
          rw [if_pos h.1]
          exact hc1
        by_cases heq : e.heap[(detag c).toNat] = c
        · rw [heq] at hget
          refine ⟨c, Or.inr ⟨hvar, hget⟩, ?_⟩
          intro fuel hf
          obtain ⟨n, rfl⟩ : ∃ n, fuel = n + 1 := ⟨fuel - 1, by omega⟩
          exact derefLoop_self e n c hvar hget
        · obtain ⟨r, hgood, hr⟩ := ih _ hj _ hc1
          refine ⟨r, hgood, ?_⟩
          intro fuel hf
          obtain ⟨n, rfl⟩ : ∃ n, fuel = n + 1 := ⟨fuel - 1, by omega⟩
          rw [derefLoop_follow e n c _ hvar hget heq]
          exact hr n (by omega)

/-- C9 (dereference termination): on a heap in which the cell held at every
index `i` is a non-variable, an unbound (self-pointing) variable, or a
variable cell whose payload is a strictly lower heap index, `deref x` returns
for every cell `x` whose payload is a heap index: the loop gives the same
result `r` for every amount of fuel from `heap.length + 1` on, and `r` is a
non-variable cell or an unbound variable cell (`getRef r = r`). -/
theorem deref_terminates (e : Engine) (x : Int) (hac : Acyclic e.heap)
    (hx : 0 ≤ detag x ∧ detag x < (e.heap.length : Int)) :
    ∃ r : Int, deref x e = some r ∧
      (∀ fuel : Nat, e.heap.length + 1 ≤ fuel → derefLoop e fuel x = some r) ∧
      (isVAR r = false ∨ (isVAR r = true ∧ getRef r e = some r)) := by
  have main : ∃ r : Int, (isVAR r = false ∨ (isVAR r = true ∧ getRef r e = some r)) ∧
      ∀ fuel : Nat, e.heap.length + 1 ≤ fuel → derefLoop e fuel x = some r := by
    cases hvar : isVAR x with
    | false =>
      refine ⟨x, Or.inl hvar, ?_⟩
      intro fuel hf
      obtain ⟨n, rfl⟩ : ∃ n, fuel = n + 1 := ⟨fuel - 1, by omega⟩
      exact derefLoop_nonvar e n x hvar
    | true =>
      have hplen : (detag x).toNat < e.heap.length := by omega
      have hc1 : e.heap[(detag x).toNat]? = some (e.heap[(detag x).toNat]) :=
        List.getElem?_eq_getElem hplen
      have hget : getRef x e = some (e.heap[(detag x).toNat]) := by
        unfold getRef heapAt
        rw [if_pos hx.1]
        exact hc1
      by_cases heq : e.heap[(detag x).toNat] = x
      · rw [heq] at hget
        refine ⟨x, Or.inr ⟨hvar, hget⟩, ?_⟩
        intro fuel hf
        obtain ⟨n, rfl⟩ : ∃ n, fuel = n + 1 := ⟨fuel - 1, by omega⟩
        exact derefLoop_self e n x hvar hget
      · obtain ⟨r, hgood, hr⟩ := derefLoop_heap_cell e hac _ _ hc1
        refine ⟨r, hgood, ?_⟩
        intro fuel hf
        obtain ⟨n, rfl⟩ : ∃ n, fuel = n + 1 := ⟨fuel - 1, by omega⟩
        rw [derefLoop_follow e n x _ hvar hget heq]
        exact hr n (by omega)
  obtain ⟨r, hgood, hr⟩ := main
  exact ⟨r, hr _ (Nat.le_refl _), hr, hgood⟩

/-- Instance of C9: the chain `-17 → heap[2] = -9 → heap[1] = -1 → heap[0] = -27`
ends at the constant cell `-27`. -/
theorem deref_terminates_witness :
    Acyclic (⟨[-27, -1, -9, -24], 3, ⟨[]⟩⟩ : Engine).heap ∧
    deref (-17) ⟨[-27, -1, -9, -24], 3, ⟨[]⟩⟩ = some (-27) ∧
    ∃ r : Int, deref (-17) ⟨[-27, -1, -9, -24], 3, ⟨[]⟩⟩ = some r ∧
      (∀ fuel : Nat, (⟨[-27, -1, -9, -24], 3, ⟨[]⟩⟩ : Engine).heap.length + 1 ≤ fuel →
        derefLoop ⟨[-27, -1, -9, -24], 3, ⟨[]⟩⟩ fuel (-17) = some r) ∧
      (isVAR r = false ∨
        (isVAR r = true ∧ getRef r ⟨[-27, -1, -9, -24], 3, ⟨[]⟩⟩ = some r)) :=
  have hac : Acyclic (⟨[-27, -1, -9, -24], 3, ⟨[]⟩⟩ : Engine).heap := by
    intro i c hc
    have hi : i < 4 := (List.getElem?_eq_some.mp hc).1
    interval_cases i <;> simp at hc <;> subst hc <;>
      simp only [isVAR, tagOf_eq, detag_eq] <;> decide
  ⟨hac,
   by simp only [deref, derefLoop, isVAR, tagOf_eq, getRef, heapAt, detag_eq]; decide,
   deref_terminates ⟨[-27, -1, -9, -24], 3, ⟨[]⟩⟩ (-17) hac
     (by rw [detag_eq]; decide)⟩

/-! ## Heap growth -/

/-- The `unsigned int` sum `1U + top + more` is the mathematical `top + more + 1`
when `top ≥ -1` and `more ≥ 0` are `int` values. -/
theorem ensureSize_operand (top more : Int) (htop : -1 ≤ top ∧ top ≤ 2147483647)
    (hmore : 0 ≤ more ∧ more ≤ 2147483647) :
    toU32 (toU32 (1 + toU32 top) + toU32 more) = top + more + 1 := by
  unfold toU32; omega

/-- C10 (`ensureSize` postcondition): for a heap with `top ≥ -1` and
`more ≥ 0` (both `int` values) the unsigned operand `1U + top + more` equals
`top + more + 1`; `ensureSize more` doubles the capacity when
`top + more + 1 ≥ capacity` and leaves the whole state unchanged otherwise; in
both cases `top` (and the trail) is kept, every existing cell keeps its index
and value, and every added cell is zero. -/
theorem ensureSize_post (e : Engine) (more : Int)
    (htop : -1 ≤ e.top ∧ e.top ≤ 2147483647)
    (hmore : 0 ≤ more ∧ more ≤ 2147483647) :
    toU32 (toU32 (1 + toU32 e.top) + toU32 more) = e.top + more + 1 ∧
      ((e.heap.length : Int) ≤ e.top + more + 1 →
        (ensureSize more e).heap.length = 2 * e.heap.length) ∧
      (e.top + more + 1 < (e.heap.length : Int) → ensureSize more e = e) ∧
      (ensureSize more e).top = e.top ∧ (ensureSize more e).trail = e.trail ∧
      (∀ i : Nat, i < e.heap.length → (ensureSize more e).heap[i]? = e.heap[i]?) ∧
      (∀ i : Nat, e.heap.length ≤ i → i < (ensureSize more e).heap.length →
        (ensureSize more e).heap[i]? = some 0) := by
  have hop := ensureSize_operand e.top more htop hmore
  refine ⟨hop, ?_, ?_, ?_, ?_, ?_, ?_⟩
  · intro hc
    unfold ensureSize
    rw [hop, if_pos hc]
    simp only [expand, List.length_append, List.length_replicate]
    omega
  · intro hc
    unfold ensureSize
    rw [hop, if_neg (by omega)]
  · unfold ensureSize
    split <;> rfl
  · unfold ensureSize
    split <;> rfl
  · intro i hi
    unfold ensureSize
    split
    · simp only [expand]
      exact List.getElem?_append_left hi
    · rfl
  · intro i hi1 hi2
    unfold ensureSize at hi2 ⊢
    split at hi2
    · rename_i hc
      rw [if_pos hc]
      simp only [expand, List.length_append, List.length_replicate] at hi2 ⊢
      rw [List.getElem?_append_right hi1, List.getElem?_replicate, if_pos (by omega)]
    · omega

/-- Instance of C10: a full heap of two cells (`top = 1`) asked for one more
cell doubles to four cells. -/
theorem ensureSize_post_witness :
    ensureSize 1 ⟨[-27, -8], 1, ⟨[]⟩⟩ = ⟨[-27, -8, 0, 0], 1, ⟨[]⟩⟩ ∧
    (toU32 (toU32 (1 + toU32 1) + toU32 1) = 1 + 1 + 1 ∧
      (((⟨[-27, -8], 1, ⟨[]⟩⟩ : Engine).heap.length : Int) ≤ 1 + 1 + 1 →
        (ensureSize 1 ⟨[-27, -8], 1, ⟨[]⟩⟩).heap.length
          = 2 * (⟨[-27, -8], 1, ⟨[]⟩⟩ : Engine).heap.length) ∧
      ((1 : Int) + 1 + 1 < ((⟨[-27, -8], 1, ⟨[]⟩⟩ : Engine).heap.length : Int) →
        ensureSize 1 ⟨[-27, -8], 1, ⟨[]⟩⟩ = ⟨[-27, -8], 1, ⟨[]⟩⟩) ∧
      (ensureSize 1 ⟨[-27, -8], 1, ⟨[]⟩⟩).top = 1 ∧
      (ensureSize 1 ⟨[-27, -8], 1, ⟨[]⟩⟩).trail = ⟨[]⟩ ∧
      (∀ i : Nat, i < (⟨[-27, -8], 1, ⟨[]⟩⟩ : Engine).heap.length →
        (ensureSize 1 ⟨[-27, -8], 1, ⟨[]⟩⟩).heap[i]? = ([-27, -8] : List Int)[i]?) ∧
      (∀ i : Nat, (⟨[-27, -8], 1, ⟨[]⟩⟩ : Engine).heap.length ≤ i →
        i < (ensureSize 1 ⟨[-27, -8], 1, ⟨[]⟩⟩).heap.length →
        (ensureSize 1 ⟨[-27, -8], 1, ⟨[]⟩⟩).heap[i]? = some 0)) :=
  ⟨by decide, ensureSize_post ⟨[-27, -8], 1, ⟨[]⟩⟩ 1 (by decide) (by decide)⟩

/-! ## The heap cursor -/

theorem heapAt_set (h : List Int) (i j v : Int) (hi : 0 ≤ i ∧ i < (h.length : Int)) :
    heapAt (h.set i.toNat v) j = if j = i then some v else heapAt h j := by
  unfold heapAt
  by_cases hj : 0 ≤ j
  · rw [if_pos hj, if_pos hj, List.getElem?_set]
    by_cases hji : j = i
    · subst hji
      rw [if_pos rfl, if_pos rfl, if_pos (by omega)]
    · rw [if_neg hji, if_neg (by omega)]
  · rw [if_neg hj, if_neg hj, if_neg (by omega)]

/-- C11 (`push` postcondition): on a heap whose cursor satisfies `top ≥ -1`
and `top + 1 < capacity` (capacity within the `int` range), `push c` returns;
the new top is the old top plus one, the cell at the new top is `c`, `size()`
has grown by exactly one, and every other heap cell, the capacity and the
trail are unchanged. -/
theorem push_post (e : Engine) (c : Int) (htop : -1 ≤ e.top)
    (hroom : e.top + 1 < (e.heap.length : Int))
    (hcap : (e.heap.length : Int) ≤ 2147483647) :
    ∃ e1 : Engine, push c e = some e1 ∧ e1.top = e.top + 1 ∧
      heapAt e1.heap e1.top = some c ∧ size e1 = size e + 1 ∧
      (∀ j : Int, j ≠ e.top + 1 → heapAt e1.heap j = heapAt e.heap j) ∧
      e1.heap.length = e.heap.length ∧ e1.trail = e.trail := by
  have hw : wrap32 (e.top + 1) = e.top + 1 := by unfold wrap32; omega
  have hidx : 0 ≤ e.top + 1 ∧ e.top + 1 < (e.heap.length : Int) := ⟨by omega, hroom⟩
  refine ⟨⟨e.heap.set (e.top + 1).toNat c, e.top + 1, e.trail⟩, ?_, rfl, ?_, ?_, ?_, ?_, rfl⟩
  · unfold push
    simp only [hw, heapPut_ok e.heap (e.top + 1) c hidx]
  · show heapAt (e.heap.set (e.top + 1).toNat c) (e.top + 1) = some c
    rw [heapAt_set _ _ _ _ hidx, if_pos rfl]
  · unfold size wrap32
    show (e.top + 1 + 1 + 2147483648) % 4294967296 - 2147483648 = _
    omega
  · intro j hj
    show heapAt (e.heap.set (e.top + 1).toNat c) j = heapAt e.heap j
    rw [heapAt_set _ _ _ _ hidx, if_neg hj]
  · show (e.heap.set (e.top + 1).toNat c).length = e.heap.length
    rw [List.length_set]

/-- Instance of C11: the `C` cell `-27` pushed on a heap of three cells that
holds one. -/
theorem push_post_witness :
    push (-27) ⟨[0, 0, 0], 0, ⟨[]⟩⟩ = some ⟨[0, -27, 0], 1, ⟨[]⟩⟩ ∧
    ∃ e1 : Engine, push (-27) ⟨[0, 0, 0], 0, ⟨[]⟩⟩ = some e1 ∧ e1.top = 0 + 1 ∧
      heapAt e1.heap e1.top = some (-27) ∧
      size e1 = size ⟨[0, 0, 0], 0, ⟨[]⟩⟩ + 1 ∧
      (∀ j : Int, j ≠ 0 + 1 → heapAt e1.heap j = heapAt [0, 0, 0] j) ∧
      e1.heap.length = ([0, 0, 0] : List Int).length ∧ e1.trail = ⟨[]⟩ :=
  ⟨by decide, push_post ⟨[0, 0, 0], 0, ⟨[]⟩⟩ (-27) (by decide) (by decide) (by decide)⟩

/-- C12 (`getRef`/`setRef` law): for a valid heap index `i` (inside the heap,
payload below `2^28`), tags `t`, `t1` in `0..7` and any cell `r`,
`setRef (tag t i) r` returns; afterwards `getRef (tag t1 i)` is `r`, `getRef`
of every cell whose payload is another index (in particular of `tag t2 j`,
`j ≠ i`) returns what it returned before, and `top` (and the trail) is
unchanged. -/
theorem getRef_setRef (e : Engine) (i t t1 r : Int)
    (hi : 0 ≤ i ∧ i < (e.heap.length : Int) ∧ i < 268435456)
    (ht : 0 ≤ t ∧ t ≤ 7) (ht1 : 0 ≤ t1 ∧ t1 ≤ 7) :
    ∃ e1 : Engine, setRef (tag t i) r e = some e1 ∧
      getRef (tag t1 i) e1 = some r ∧
      (∀ x : Int, detag x ≠ i → getRef x e1 = getRef x e) ∧
      (∀ t2 j : Int, 0 ≤ t2 ∧ t2 ≤ 7 → 0 ≤ j ∧ j < 268435456 → j ≠ i →
        getRef (tag t2 j) e1 = getRef (tag t2 j) e) ∧
      e1.top = e.top ∧ e1.trail = e.trail := by
  have hrange : -268435456 < i ∧ i < 268435456 := ⟨by omega, hi.2.2⟩
  have hidx : 0 ≤ i ∧ i < (e.heap.length : Int) := ⟨hi.1, hi.2.1⟩
  have hother : ∀ x : Int, detag x ≠ i →
      heapAt (e.heap.set i.toNat r) (detag x) = heapAt e.heap (detag x) := by
    intro x hx
    rw [heapAt_set _ _ _ _ hidx, if_neg hx]
  refine ⟨⟨e.heap.set i.toNat r, e.top, e.trail⟩, ?_, ?_, ?_, ?_, rfl, rfl⟩
  · unfold setRef
    simp only [detag_tag t i ht hrange, heapPut_ok e.heap i r hidx]
  · show heapAt (e.heap.set i.toNat r) (detag (tag t1 i)) = some r
    rw [detag_tag t1 i ht1 hrange, heapAt_set _ _ _ _ hidx, if_pos rfl]
  · intro x hx
    exact hother x hx
  · intro t2 j ht2 hj hji
    apply hother
    rw [detag_tag t2 j ht2 ⟨by omega, hj.2⟩]
    exact hji

/-- Instance of C12: cell `1` written through the `V` reference `tag V 1` and
read back through the `U` reference `tag U 1`. -/
theorem getRef_setRef_witness :
    ∃ e1 : Engine, setRef (tag V 1) (-27) ⟨[0, -8, -16], 2, ⟨[]⟩⟩ = some e1 ∧
      getRef (tag U 1) e1 = some (-27) ∧
      (∀ x : Int, detag x ≠ 1 → getRef x e1 = getRef x ⟨[0, -8, -16], 2, ⟨[]⟩⟩) ∧
      (∀ t2 j : Int, 0 ≤ t2 ∧ t2 ≤ 7 → 0 ≤ j ∧ j < 268435456 → j ≠ 1 →
        getRef (tag t2 j) e1 = getRef (tag t2 j) ⟨[0, -8, -16], 2, ⟨[]⟩⟩) ∧
      e1.top = 2 ∧ e1.trail = ⟨[]⟩ :=
  getRef_setRef ⟨[0, -8, -16], 2, ⟨[]⟩⟩ 1 V U (-27) (by decide) (by decide) (by decide)

/-- C13 (initial heap state): after `makeHeap()` the heap has exactly
`2^15 = 32768` cells, all zero, `top = -1` and `size() = 0`; and `clear()` on
any state sets `top` to `-1` (`size() = 0`) and changes neither the capacity
nor any cell (nor the trail). -/
theorem makeHeap_clear_state (e : Engine) :
    (makeHeap e).heap.length = 32768 ∧ (2 : Nat) ^ 15 = 32768 ∧
      (makeHeap e).heap = List.replicate 32768 0 ∧
      (∀ c ∈ (makeHeap e).heap, c = 0) ∧
      (makeHeap e).top = -1 ∧ size (makeHeap e) = 0 ∧
      (clear e).top = -1 ∧ size (clear e) = 0 ∧
      (clear e).heap = e.heap ∧ (clear e).heap.length = e.heap.length ∧
      (clear e).trail = e.trail := by
  have hz : wrap32 (-1 + 1) = 0 := by decide
  refine ⟨?_, by norm_num, rfl, ?_, rfl, ?_, rfl, ?_, rfl, rfl, rfl⟩
  · show (List.replicate MINSIZE (0 : Int)).length = 32768
    rw [List.length_replicate]
    rfl
  · intro c hc
    simp only [makeHeap, makeHeapOf, clear] at hc
    exact List.eq_of_mem_replicate hc
  · show wrap32 (-1 + 1) = 0
    exact hz
  · show wrap32 (-1 + 1) = 0
    exact hz

/-! ## Sign of integer cells -/

/-- C14, counterexample: the `N` cell of the integer literal `-5` is `36`, a
positive value, so it is not non-positive; its tag and payload are still
recovered. -/
theorem tag_negative_literal :
    tag N (-5) = 36 ∧ ¬ (tag N (-5) ≤ 0) ∧ tagOf (tag N (-5)) = N ∧
      detag (tag N (-5)) = -5 := by
  simp only [tagOf_eq, detag_eq, tag_eq]
  decide

/-- C14, amended: the sign convention holds for the cells of non-negative
payload: for every tag `t` in `0..7` and payload `n` within `±2^28`,
`tag t n` is non-positive exactly when `n ≥ 0`. In particular the `N` cell of
an integer literal `n` is `-(8 n + 4)`: non-positive for `n ≥ 0`, positive for
a negative literal, and in both cases `tagOf` gives `N` and `detag` gives
`n`. -/
theorem tag_literal_sign (t n : Int) (ht : 0 ≤ t ∧ t ≤ 7)
    (hn : -268435456 < n ∧ n < 268435456) :
    (tag t n ≤ 0 ↔ 0 ≤ n) ∧ tag N n = -(8 * n + 4) ∧
      (0 ≤ n → tag N n ≤ 0) ∧ (n < 0 → 0 < tag N n) ∧
      tagOf (tag N n) = N ∧ detag (tag N n) = n := by
  have h := tag_exact t n ht hn
  have hN := tag_exact N n (by decide) hn
  have hNt := tagOf_tag N n (by decide) hn
  have hNd := detag_tag N n (by decide) hn
  unfold N at hN hNt hNd ⊢
  refine ⟨?_, hN, ?_, ?_, hNt, hNd⟩
  · rw [h]; omega
  · intro h0; rw [hN]; omega
  · intro h0; rw [hN]; omega

/-- Instance of the amended C14 at the literals `-3` (as an `N` cell) and at
tag `C`. -/
theorem tag_literal_sign_witness :
    (tag C (-3) ≤ 0 ↔ (0 : Int) ≤ -3) ∧ tag N (-3) = -(8 * (-3) + 4) ∧
      ((0 : Int) ≤ -3 → tag N (-3) ≤ 0) ∧ ((-3 : Int) < 0 → 0 < tag N (-3)) ∧
      tagOf (tag N (-3)) = N ∧ detag (tag N (-3)) = -3 :=
  tag_literal_sign C (-3) (by decide) (by decide)

/-! ## The query clause and the answer spine -/

/-- C15 (query convention): on a non-empty clause database (its size a
`size_t` value) `getQuery` returns the clause at index `size - 1`, the last
clause of the list; on the empty database the index `size - 1`, computed in
`size_t`, is `2^64 - 1` and lies outside the vector. -/
theorem getQuery_last {Clause : Type} (clauses : List Clause) (hne : clauses ≠ [])
    (hsz : (clauses.length : Int) < 18446744073709551616) :
    getQuery clauses = clauses[clauses.length - 1]? ∧
      getQuery clauses = clauses.getLast? ∧
      (∃ q : Clause, getQuery clauses = some q) ∧
      toU64 ((([] : List Clause).length : Int) - 1) = 18446744073709551615 ∧
      getQuery ([] : List Clause) = none := by
  have hpos : 0 < clauses.length := List.length_pos.mpr hne
  have hidx : (toU64 ((clauses.length : Int) - 1)).toNat = clauses.length - 1 := by
    unfold toU64
    rw [Int.emod_eq_of_lt (by omega) (by omega)]
    omega
  have h1 : getQuery clauses = clauses[clauses.length - 1]? := by
    unfold getQuery; rw [hidx]
  refine ⟨h1, ?_, ?_, ?_, ?_⟩
  · rw [h1, List.getLast?_eq_getElem?]
  · refine ⟨clauses.getLast hne, ?_⟩
    rw [h1, ← List.getLast?_eq_getElem?]
    exact List.getLast?_eq_getLast clauses hne
  · simp only [List.length_nil]
    decide
  · unfold getQuery
    rfl

/-- Instance of C15 on a database of three clauses (clause numbers as
clauses). -/
theorem getQuery_last_witness :
    getQuery [10, 11, 12] = some 12 ∧
    (getQuery [10, 11, 12] = ([10, 11, 12] : List Nat)[([10, 11, 12] : List Nat).length - 1]? ∧
      getQuery [10, 11, 12] = ([10, 11, 12] : List Nat).getLast? ∧
      (∃ q : Nat, getQuery [10, 11, 12] = some q) ∧
      toU64 ((([] : List Nat).length : Int) - 1) = 18446744073709551615 ∧
      getQuery ([] : List Nat) = none) :=
  ⟨by decide, getQuery_last [10, 11, 12] (by decide) (by decide)⟩

/-- C19 (answer spine): on a non-empty spine stack `answer ttop` returns a
spine whose `hd` is the `hd` of the bottom spine `spines[0]` and whose `ttop`
is the given value; the result is the same for every stack with the same
bottom spine, and `answer` takes no goal. -/
theorem answer_bottom_hd (ttop : Int) (spines : List Spine) (hne : spines ≠ []) :
    ∃ s0 sp : Spine, spines[0]? = some s0 ∧ answer ttop spines = some sp ∧
      sp.hd = s0.hd ∧ sp.ttop = ttop ∧
      ∀ others : List Spine, answer ttop (s0 :: others) = some sp := by
  cases spines with
  | nil => exact absurd rfl hne
  | cons s0 rest =>
    have hans : ∀ others : List Spine,
        answer ttop (s0 :: others) = some (Spine.ofAnswer s0.hd ttop) := by
      intro others
      simp only [answer, List.getElem?_cons_zero]
    exact ⟨s0, Spine.ofAnswer s0.hd ttop, List.getElem?_cons_zero, hans rest, rfl, rfl, hans⟩

/-- Instance of C19 on a stack of two spines. -/
theorem answer_bottom_hd_witness :
    answer 7 [⟨-16, 0, [-16], -1, 0, [2], []⟩, ⟨-48, 9, [-48, -56], 3, 1, [0, 1], []⟩]
        = some ⟨-16, 0, [], 7, -1, [], []⟩ ∧
    ∃ s0 sp : Spine,
      ([⟨-16, 0, [-16], -1, 0, [2], []⟩, ⟨-48, 9, [-48, -56], 3, 1, [0, 1], []⟩]
        : List Spine)[0]? = some s0 ∧
      answer 7 [⟨-16, 0, [-16], -1, 0, [2], []⟩, ⟨-48, 9, [-48, -56], 3, 1, [0, 1], []⟩]
        = some sp ∧
      sp.hd = s0.hd ∧ sp.ttop = 7 ∧
      ∀ others : List Spine, answer 7 (s0 :: others) = some sp :=
  ⟨by decide, answer_bottom_hd 7
    [⟨-16, 0, [-16], -1, 0, [2], []⟩, ⟨-48, 9, [-48, -56], 3, 1, [0, 1], []⟩] (by decide)⟩

/-! ## Relocation by a tagged offset -/

theorem tag_var_exact (d : Int) (hd : -268435456 < d ∧ d < 268435456) :
    tag V d = -(8 * d) := by
  have h := tag_exact V d (by decide) hd
  unfold V at h ⊢
  omega

/-- C16 (relocation by a tagged offset): for `t` among `V, U, R` and `w`, `d`,
`w + d` within the payload range, `relocate (tag V d) (tag t w) = tag t (w + d)`,
where `tag V d` is a multiple of `8`; for an `int` offset `b`, the payload is
shifted by `d` with the tag kept exactly when `b = tag V d`; and relocations
compose on every cell `c`:
`relocate (tag V d1) (relocate (tag V d2) c) = relocate (tag V (d1 + d2)) c`. -/
theorem relocate_tagged_offset (d t w b c d1 d2 : Int) (ht : t = V ∨ t = U ∨ t = R)
    (hw : -268435456 < w ∧ w < 268435456) (hd : -268435456 < d ∧ d < 268435456)
    (hwd : -268435456 < w + d ∧ w + d < 268435456) (hb : isInt32 b)
    (hd1 : -268435456 < d1 ∧ d1 < 268435456) (hd2 : -268435456 < d2 ∧ d2 < 268435456)
    (hd12 : -268435456 < d1 + d2 ∧ d1 + d2 < 268435456) :
    relocate (tag V d) (tag t w) = tag t (w + d) ∧ tag V d % 8 = 0 ∧
      ((tagOf (relocate b (tag t w)) = t ∧ detag (relocate b (tag t w)) = w + d)
        ↔ b = tag V d) ∧
      relocate (tag V d1) (relocate (tag V d2) c) = relocate (tag V (d1 + d2)) c := by
  have ht7 : 0 ≤ t ∧ t ≤ 7 := by
    rcases ht with h | h | h <;> rw [h] <;> decide
  have ht3 : t < 3 := by
    rcases ht with h | h | h <;> rw [h] <;> decide
  have hcell : tagOf (tag t w) < 3 := by rw [tagOf_tag t w ht7 hw]; exact ht3
  have hV := tag_var_exact d hd
  have hV1 := tag_var_exact d1 hd1
  have hV2 := tag_var_exact d2 hd2
  have hV12 := tag_var_exact (d1 + d2) hd12
  have hcw := tag_exact t w ht7 hw
  have hcwd := tag_exact t (w + d) ht7 hwd
  unfold isInt32 at hb
  refine ⟨?_, ?_, ?_, ?_⟩
  · unfold relocate
    rw [if_pos hcell, hV, hcw, hcwd]
    unfold wrap32
    omega
  · rw [hV]; omega
  · unfold relocate
    rw [if_pos hcell, hV, hcw, tagOf_eq, detag_eq]
    unfold wrap32
    constructor
    · intro h
      omega
    · intro h
      subst h
      constructor <;> omega
  · unfold relocate
    rw [hV1, hV2, hV12]
    by_cases hc : tagOf c < 3
    · have hc1 : tagOf (wrap32 (c + -(8 * d2))) < 3 := by
        rw [tagOf_eq] at hc ⊢
        unfold wrap32 at hc ⊢
        omega
      rw [if_pos hc, if_pos hc1]
      unfold wrap32
      omega
    · rw [if_neg hc, if_neg hc, if_neg hc]

/-- Instance of C16: the `U` cell of payload `3` moved by `d = 10`, and the
moves by `4` and `6` composed on the `R` cell `-42`. -/
theorem relocate_tagged_offset_witness :
    relocate (tag V 10) (tag U 3) = tag U (3 + 10) ∧ tag V 10 % 8 = 0 ∧
      ((tagOf (relocate (-80) (tag U 3)) = U ∧ detag (relocate (-80) (tag U 3)) = 3 + 10)
        ↔ -80 = tag V 10) ∧
      relocate (tag V 4) (relocate (tag V 6) (-42)) = relocate (tag V (4 + 6)) (-42) :=
  relocate_tagged_offset 10 U 3 (-80) (-42) 4 6 (by decide) (by decide) (by decide)
    (by decide) (by decide) (by decide) (by decide) (by decide)

/-! ## Room after `ensureSize` -/

/-- C17, the code at the failing input: on a full heap of two cells
(`top = 1`) `ensureSize 5` doubles the capacity once, to four cells, while
`top + 5 + 1 = 7`; the third of the five pushes that follow has no cell to
write to. -/
theorem ensureSize_single_doubling :
    (ensureSize 5 ⟨[-27, -8], 1, ⟨[]⟩⟩).heap.length = 4 ∧
      ¬ ((1 : Int) + 5 + 1 < ((ensureSize 5 ⟨[-27, -8], 1, ⟨[]⟩⟩).heap.length : Int)) ∧
      ((push 0 (ensureSize 5 ⟨[-27, -8], 1, ⟨[]⟩⟩)).bind (push 0)).isSome = true ∧
      (((push 0 (ensureSize 5 ⟨[-27, -8], 1, ⟨[]⟩⟩)).bind (push 0)).bind (push 0)) = none := by
  decide

/-! ## The sign of tagged cells -/

/-- C20, counterexample: the `V` cell of heap index `1` is `-8`, not a
positive value. -/
theorem tag_positive_counterexample : ¬ (0 < tag V 1) := by
  rw [tag_eq]
  decide

/-- C20, amended: `tag` flips the value so that tagged cells are never
positive: for every tag `t` in `0..7` and payload `0 ≤ w < 2^28`,
`tag t w = -(8 w + t) ≤ 0`, and the cell is strictly negative except for
`tag V 0 = 0`. -/
theorem tag_flips_sign (t w : Int) (ht : 0 ≤ t ∧ t ≤ 7) (hw : 0 ≤ w ∧ w < 268435456) :
    tag t w = -(8 * w + t) ∧ tag t w ≤ 0 ∧ (tag t w < 0 ↔ ¬ (t = V ∧ w = 0)) ∧
      tag V 0 = 0 := by
  have h := tag_exact t w ht ⟨by omega, hw.2⟩
  have h0 : tag V 0 = 0 := by rw [tag_eq]; decide
  unfold V at h0 ⊢
  refine ⟨h, by omega, ?_, h0⟩
  rw [h]
  omega

/-- Instance of the amended C20 at the `A` cell of arity `2`. -/
theorem tag_flips_sign_witness :
    tag A 2 = -(8 * 2 + A) ∧ tag A 2 ≤ 0 ∧ (tag A 2 < 0 ↔ ¬ (A = V ∧ (2 : Int) = 0)) ∧
      tag V 0 = 0 :=
  tag_flips_sign A 2 (by decide) (by decide)

/-! ## Counting the pops of `unwindTrail` -/

theorem unwindLoop_noop (savedTop : Int) (fuel : Nat) (e : Engine)
    (h : ¬ savedTop < e.trail.getTop) : unwindLoop savedTop fuel e = some e := by
  cases fuel with
  | zero => simp [unwindLoop, h]
  | succ n => simp [unwindLoop, h]

theorem setRef_trail (w r : Int) (e e1 : Engine) (h : setRef w r e = some e1) :
    e1.trail = e.trail ∧ e1.top = e.top := by
  unfold setRef at h
  split at h
  · cases h
  · injection h with h
    subst h
    exact ⟨rfl, rfl⟩

theorem unwindLoop_top_le (savedTop : Int) :
    ∀ (fuel : Nat) (e e1 : Engine), unwindLoop savedTop fuel e = some e1 →
      ¬ savedTop < e1.trail.getTop := by
  intro fuel
  induction fuel with
  | zero =>
    intro e e1 hu
    unfold unwindLoop at hu
    split at hu
    · cases hu
    · rename_i hc
      injection hu with hu
      subst hu
      exact hc
  | succ n ih =>
    intro e e1 hu
    unfold unwindLoop at hu
    split at hu
    · split at hu
      · cases hu
      · split at hu
        · cases hu
        · rename_i e2 _
          exact ih e2 e1 hu
    · rename_i hc
      injection hu with hu
      subst hu
      exact hc

theorem unwindLoop_step (savedTop : Int) (pre rs h : List Int) (x top : Int) (n : Nat)
    (hpre : savedTop + 1 = (pre.length : Int))
    (hx : 0 ≤ detag x ∧ detag x < (h.length : Int)) :
    unwindLoop savedTop (n + 1) ⟨h, top, ⟨pre ++ (rs.reverse ++ [x])⟩⟩
      = unwindLoop savedTop n ⟨h.set (detag x).toNat x, top, ⟨pre ++ rs.reverse⟩⟩ := by
  have hc : savedTop < ((pre.length : Int) + ((rs.length : Int) + 1)) - 1 := by omega
  have hpop : IntStack.pop ⟨pre ++ (rs.reverse ++ [x])⟩
      = some (x, ⟨pre ++ rs.reverse⟩) := by
    simp [IntStack.pop, ← List.append_assoc]
  simp only [unwindLoop, IntStack.getTop, List.length_append, List.length_reverse,
    List.length_singleton, List.length_nil, Nat.cast_add, Nat.cast_one, Nat.cast_zero,
    zero_add, hc, if_true, hpop, setRef, heapPut_ok h (detag x) x hx]

/-- With at least as much fuel as entries above the watermark the loop
returns the closed form. -/
theorem unwindLoop_closed_ge (savedTop : Int) (pre : List Int)
    (hpre : savedTop + 1 = (pre.length : Int)) :
    ∀ (rsuf h : List Int) (top : Int) (k : Nat),
      (∀ x ∈ rsuf, 0 ≤ detag x ∧ detag x < (h.length : Int)) →
      unwindLoop savedTop (rsuf.length + k) ⟨h, top, ⟨pre ++ rsuf.reverse⟩⟩
        = some ⟨restoreCells h rsuf.reverse, top, ⟨pre⟩⟩ := by
  intro rsuf
  induction rsuf with
  | nil =>
    intro h top k _
    have hc : ¬ savedTop < (pre.length : Int) - 1 := by omega
    have hn := unwindLoop_noop savedTop (0 + k) ⟨h, top, ⟨pre⟩⟩
      (by simp only [IntStack.getTop]; exact hc)
    simpa [restoreCells] using hn
  | cons x rs ih =>
    intro h top k hv
    have hx := hv x (List.mem_cons_self x rs)
    have hfuel : (x :: rs).length + k = (rs.length + k) + 1 := by
      simp only [List.length_cons]; omega
    have hlen : ((h.set (detag x).toNat x).length : Int) = h.length := by
      rw [List.length_set]
    have ih1 := ih (h.set (detag x).toNat x) top k (by
      intro y hy
      rw [hlen]
      exact hv y (List.mem_cons_of_mem x hy))
    rw [hfuel, List.reverse_cons, unwindLoop_step savedTop pre rs h x top _ hpre hx, ih1,
      restoreCells_concat]

/-- With less fuel than entries above the watermark the loop condition is
still true when the fuel is spent. -/
theorem unwindLoop_short (savedTop : Int) (pre : List Int)
    (hpre : savedTop + 1 = (pre.length : Int)) :
    ∀ (rsuf h : List Int) (top : Int) (m : Nat),
      (∀ x ∈ rsuf, 0 ≤ detag x ∧ detag x < (h.length : Int)) →
      m < rsuf.length →
      unwindLoop savedTop m ⟨h, top, ⟨pre ++ rsuf.reverse⟩⟩ = none := by
  intro rsuf
  induction rsuf with
  | nil =>
    intro h top m _ hm
    simp at hm
  | cons x rs ih =>
    intro h top m hv hm
    have hx := hv x (List.mem_cons_self x rs)
    cases m with
    | zero =>
      have hc : savedTop < ((pre.length : Int) + ((rs.length : Int) + 1)) - 1 := by omega
      simp only [unwindLoop, IntStack.getTop, List.length_append, List.length_reverse,
        List.length_cons, Nat.cast_add, Nat.cast_one, hc, if_true]
    | succ m1 =>
      have hlen : ((h.set (detag x).toNat x).length : Int) = h.length := by
        rw [List.length_set]
      rw [List.reverse_cons, unwindLoop_step savedTop pre rs h x top _ hpre hx]
      exact ih (h.set (detag x).toNat x) top m1 (by
        intro y hy
        rw [hlen]
        exact hv y (List.mem_cons_of_mem x hy))
        (by simp only [List.length_cons] at hm; omega)

theorem restoreCells_frame (h : List Int) :
    ∀ popped : List Int,
      (∀ x ∈ popped, 0 ≤ detag x ∧ detag x < (h.length : Int)) →
      ∀ j : Int, (∀ x ∈ popped, detag x ≠ j) →
        heapAt (restoreCells h popped) j = heapAt h j := by
  intro popped
  induction popped with
  | nil => intro _ j _; rfl
  | cons a t ih =>
    intro hv j hj
    have ha := hv a (List.mem_cons_self a t)
    show heapAt ((restoreCells h t).set (detag a).toNat a) j = heapAt h j
    rw [heapAt_set _ _ _ _ (by rw [restoreCells_length]; exact ha),
      if_neg (fun hja => hj a (List.mem_cons_self a t) hja.symm)]
    exact ih (fun y hy => hv y (List.mem_cons_of_mem a hy)) j
      (fun y hy => hj y (List.mem_cons_of_mem a hy))

/-- The loop with `m` units of fuel: it returns the closed form exactly when
`m` reaches the number of entries above the watermark. -/
theorem unwindLoop_exact (savedTop : Int) (e : Engine) (hs : -1 ≤ savedTop)
    (hv : ∀ x ∈ e.trail.items.drop (savedTop + 1).toNat,
      0 ≤ detag x ∧ detag x < (e.heap.length : Int)) (m : Nat) :
    unwindLoop savedTop m e =
      if (e.trail.getTop - savedTop).toNat ≤ m then
        some ⟨restoreCells e.heap (e.trail.items.drop (savedTop + 1).toNat), e.top,
          ⟨e.trail.items.take (savedTop + 1).toNat⟩⟩
      else none := by
  obtain ⟨h, top, ⟨items⟩⟩ := e
  simp only [IntStack.getTop] at hv ⊢
  by_cases hle : (items.length : Int) - 1 ≤ savedTop
  · have hn : items.length ≤ (savedTop + 1).toNat := by omega
    rw [if_pos (by omega), List.drop_eq_nil_of_le hn, List.take_of_length_le hn]
    exact unwindLoop_noop savedTop m _ (by simp only [IntStack.getTop]; omega)
  · have hn : (savedTop + 1).toNat ≤ items.length := by omega
    have hpre : savedTop + 1 = ((items.take (savedTop + 1).toNat).length : Int) := by
      rw [List.length_take, Nat.min_eq_left hn]; omega
    have hvr : ∀ x ∈ (items.drop (savedTop + 1).toNat).reverse,
        0 ≤ detag x ∧ detag x < (h.length : Int) :=
      fun x hx => hv x (List.mem_reverse.mp hx)
    by_cases hm : ((items.length : Int) - 1 - savedTop).toNat ≤ m
    · rw [if_pos hm]
      have key := unwindLoop_closed_ge savedTop (items.take (savedTop + 1).toNat) hpre
        (items.drop (savedTop + 1).toNat).reverse h top
        (m - (items.length - (savedTop + 1).toNat)) hvr
      rw [List.reverse_reverse, List.take_append_drop, List.length_reverse,
        List.length_drop] at key
      have hfuel : items.length - (savedTop + 1).toNat
          + (m - (items.length - (savedTop + 1).toNat)) = m := by omega
      rw [hfuel] at key
      exact key
    · rw [if_neg hm]
      have key := unwindLoop_short savedTop (items.take (savedTop + 1).toNat) hpre
        (items.drop (savedTop + 1).toNat).reverse h top m hvr
        (by rw [List.length_reverse, List.length_drop]; omega)
      rw [List.reverse_reverse, List.take_append_drop] at key
      exact key

/-- C18 (`unwindTrail` terminates and is a no-op at or above the trail top),
for every `savedTop ≥ -1`: when `savedTop ≥ trail top` the state is returned
unchanged; `unwindTrail` twice equals `unwindTrail` once; whenever the loop
condition holds the trail is not empty, so `pop` has an entry to return; and
when the entries above `savedTop` reference heap cells, the loop returns after
exactly `max 0 (trail top - savedTop)` evaluations of its body (one pop each:
less fuel does not suffice, more is not used), the trail keeps the entries up
to `savedTop`, and every heap cell not named by a popped entry, and `top`,
is unchanged. -/
theorem unwindTrail_pops (e : Engine) (savedTop : Int) (hs : -1 ≤ savedTop) :
    (e.trail.getTop ≤ savedTop → unwindTrail savedTop e = some e) ∧
    (unwindTrail savedTop e).bind (unwindTrail savedTop) = unwindTrail savedTop e ∧
    (savedTop < e.trail.getTop → ∃ href tr, e.trail.pop = some (href, tr)) ∧
    ((∀ x ∈ e.trail.items.drop (savedTop + 1).toNat,
        0 ≤ detag x ∧ detag x < (e.heap.length : Int)) →
      ∃ e1 : Engine, unwindTrail savedTop e = some e1 ∧
        (∀ m : Nat, unwindLoop savedTop m e = some e1
          ↔ (max 0 (e.trail.getTop - savedTop)).toNat ≤ m) ∧
        (e1.trail.items.length : Int) + max 0 (e.trail.getTop - savedTop)
          = (e.trail.items.length : Int) ∧
        e1.trail.items = e.trail.items.take (savedTop + 1).toNat ∧
        (∀ j : Int, (∀ x ∈ e.trail.items.drop (savedTop + 1).toNat, detag x ≠ j) →
          heapAt e1.heap j = heapAt e.heap j) ∧
        e1.top = e.top) := by
  refine ⟨?_, ?_, ?_, ?_⟩
  · intro hle
    exact unwindLoop_noop savedTop _ e (by omega)
  · cases hu : unwindTrail savedTop e with
    | none => rfl
    | some e1 =>
      show unwindTrail savedTop e1 = some e1
      exact unwindLoop_noop savedTop _ e1 (unwindLoop_top_le savedTop _ e e1 hu)
  · intro hlt
    unfold IntStack.getTop at hlt
    have hne : e.trail.items ≠ [] := by
      intro h0
      rw [h0] at hlt
      simp only [List.length_nil, Nat.cast_zero] at hlt
      omega
    refine ⟨e.trail.items.getLast hne, ⟨e.trail.items.dropLast⟩, ?_⟩
    unfold IntStack.pop
    rw [List.getLast?_eq_getLast e.trail.items hne]
  · intro hv
    have hex := unwindLoop_exact savedTop e hs hv
    have hmax : (max 0 (e.trail.getTop - savedTop)).toNat
        = (e.trail.getTop - savedTop).toNat := by omega
    refine ⟨⟨restoreCells e.heap (e.trail.items.drop (savedTop + 1).toNat), e.top,
      ⟨e.trail.items.take (savedTop + 1).toNat⟩⟩, ?_, ?_, ?_, rfl, ?_, rfl⟩
    · unfold unwindTrail
      rw [hex, if_pos (Nat.le_refl _)]
    · intro m
      rw [hex m, hmax]
      by_cases hm : (e.trail.getTop - savedTop).toNat ≤ m
      · rw [if_pos hm]
        exact ⟨fun _ => hm, fun _ => rfl⟩
      · rw [if_neg hm]
        exact ⟨fun h => (by cases h), fun h => absurd h hm⟩
    · unfold IntStack.getTop
      simp only [List.length_take]
      omega
    · intro j hj
      exact restoreCells_frame e.heap _ hv j hj

/-- Instance of C18: two entries above the watermark `0` are popped, cells `1`
and `2` are rewritten, cell `0` is not; one unit of fuel does not suffice. -/
theorem unwindTrail_pops_witness :
    unwindTrail 0 ⟨[-27, -27, -8], 2, ⟨[0, -8, -16]⟩⟩ = some ⟨[-27, -8, -16], 2, ⟨[0]⟩⟩ ∧
    unwindLoop 0 1 ⟨[-27, -27, -8], 2, ⟨[0, -8, -16]⟩⟩ = none ∧
    (unwindTrail 0 ⟨[-27, -27, -8], 2, ⟨[0, -8, -16]⟩⟩).bind (unwindTrail 0)
      = unwindTrail 0 ⟨[-27, -27, -8], 2, ⟨[0, -8, -16]⟩⟩ ∧
    ∃ e1 : Engine, unwindTrail 0 ⟨[-27, -27, -8], 2, ⟨[0, -8, -16]⟩⟩ = some e1 ∧
      (∀ m : Nat, unwindLoop 0 m ⟨[-27, -27, -8], 2, ⟨[0, -8, -16]⟩⟩ = some e1
        ↔ (max 0 ((⟨[0, -8, -16]⟩ : IntStack).getTop - 0)).toNat ≤ m) ∧
      (e1.trail.items.length : Int) + max 0 ((⟨[0, -8, -16]⟩ : IntStack).getTop - 0)
        = (([0, -8, -16] : List Int).length : Int) ∧
      e1.trail.items = ([0, -8, -16] : List Int).take ((0 : Int) + 1).toNat ∧
      (∀ j : Int, (∀ x ∈ ([0, -8, -16] : List Int).drop ((0 : Int) + 1).toNat,
          detag x ≠ j) →
        heapAt e1.heap j = heapAt [-27, -27, -8] j) ∧
      e1.top = 2 :=
  have h := unwindTrail_pops ⟨[-27, -27, -8], 2, ⟨[0, -8, -16]⟩⟩ 0 (by decide)
  ⟨by decide, by decide, h.2.1, h.2.2.2 (by
    show ∀ x ∈ ([-8, -16] : List Int), 0 ≤ detag x ∧ detag x < 3
    simp only [detag_eq]
    decide)⟩

end Engine
